import Mathlib

/-!
Verification development for the overlay-based amount/date replacement engine
in `bot_nl.py` (`notary_replace_amount_pdf_purepy` and its helpers).

The Python code is shallowly embedded: strings are `List Char`, floats that
carry exact decimal amounts are modelled by their cent count (`Nat`) or by
exact rationals (`ℚ`), the four regular expressions are embedded as
deterministic matchers (each regex is simple enough that greedy matching with
backtracking has a unique result, noted at each definition), and
`re.finditer` is embedded as a left-to-right scanner that resumes after each
match.  Page rendering and compositing are embedded as pure functions from
page data to overlay/output page lists.
-/

namespace BotNL

/-- Characters matched by Python's regex class `\s` (ASCII range). -/
def isPySpace (c : Char) : Bool :=
  c = ' ' || c = '\t' || c = '\n' || c = '\r' || c = '\x0b' || c = '\x0c'

/-- Characters matched by the regex class `[\d\.\s]` used by both money
patterns. -/
def isMoneyClass (c : Char) : Bool :=
  c.isDigit || c = '.' || isPySpace c

/-- Word characters for Python's `\b` word-boundary (ASCII range). -/
def isWordChar (c : Char) : Bool :=
  c.isAlphanum || c = '_'

/-- Characters matched by the regex class `[A-Z]`. -/
def isUpperAZ (c : Char) : Bool :=
  'A' ≤ c && c ≤ 'Z'

/-- The decimal digit character for `k < 10`. -/
def digitChar (k : Nat) : Char := Char.ofNat (48 + k)

/-- Numeric value of a digit character. -/
def digitVal (c : Char) : Nat := c.toNat - 48

/-- Reversed (least-significant-first) decimal digits of `n`, with explicit
fuel so that the definition is structurally recursive. -/
def toDigitsRev : Nat → Nat → List Char
  | 0, _ => []
  | fuel + 1, n => if n = 0 then [] else digitChar (n % 10) :: toDigitsRev fuel (n / 10)

/-- Decimal digit string of `n`, most significant digit first, as produced by
Python's integer formatting. -/
def natDigits (n : Nat) : List Char :=
  if n = 0 then ['0'] else (toDigitsRev n n).reverse

/-- Value of a most-significant-first digit string. -/
def ofDigits (ds : List Char) : Nat :=
  ds.foldl (fun a c => 10 * a + digitVal c) 0

/-- Thousands grouping on a least-significant-first digit list: a `'.'` is
inserted after every three digits.  This is the composition of Python's
`f"{value:,.2f}"` comma grouping with the `replace` chain in `_format_like`
that swaps `','`/`'.'` into the Dutch convention. -/
def group3Rev : List Char → List Char
  | [] => []
  | [a] => [a]
  | [a, b] => [a, b]
  | [a, b, c] => [a, b, c]
  | a :: b :: c :: d :: rest => a :: b :: c :: '.' :: group3Rev (d :: rest)

/-- Thousands grouping (with `'.'`) of a most-significant-first digit list. -/
def group3 (ds : List Char) : List Char :=
  (group3Rev ds.reverse).reverse

/-- Two-digit rendering of `f < 100`, as produced by the `.2f` fractional
part. -/
def pad2 (f : Nat) : List Char :=
  [digitChar (f / 10), digitChar (f % 10)]

/-- Dutch-formatted number string for an exact amount of `cents` cents:
grouping dot, decimal comma, exactly two decimals.  This is
`f"{value:,.2f}".replace(",", "X").replace(".", ",").replace("X", ".")` from
`_format_like`, with the nonnegative two-decimal float `value` modelled
exactly by its cent count. -/
def dutchNumber (cents : Nat) : List Char :=
  group3 (natDigits (cents / 100)) ++ ',' :: pad2 (cents % 100)

/-- Python `str.strip()` (whitespace at both ends). -/
def pyStrip (s : List Char) : List Char :=
  ((s.dropWhile isPySpace).reverse.dropWhile isPySpace).reverse

/-- Test from `_format_like`: does the stripped source text start with `'€'`
(`s.startswith("€")`)? -/
def eurLeft (src : List Char) : Bool :=
  match pyStrip src with
  | c :: _ => c = '€'
  | [] => false

/-- Embedding of `_format_like(src, value)`: render the new amount in the same
currency-symbol placement as the matched source text. -/
def format_like (src : List Char) (cents : Nat) : List Char :=
  if eurLeft src then '€' :: ' ' :: dutchNumber cents
  else dutchNumber cents ++ ' ' :: '€' :: []

/-- Python `str.replace(x, "")` for a single-character pattern. -/
def removeChar (x : Char) (s : List Char) : List Char :=
  s.filter (fun c => c ≠ x)

/-- Python `str.replace("EUR", "")`: left-to-right, non-overlapping removal of
the three-character substring. -/
def removeEUR : List Char → List Char
  | 'E' :: 'U' :: 'R' :: rest => removeEUR rest
  | c :: rest => c :: removeEUR rest
  | [] => []

/-- Python `str.replace(a, b)` for single characters. -/
def replaceChar (a b : Char) (s : List Char) : List Char :=
  s.map (fun c => if c = a then b else c)

/-- Python `x in s` for a single character. -/
def containsChar (x : Char) (s : List Char) : Bool :=
  s.any (fun c => c = x)

/-- The optional leading minus of `-?` in `^-?\d+(\.\d+)?$`: sign flag and the
remainder. -/
def signSplit : List Char → Bool × List Char
  | c :: rest => if c = '-' then (true, rest) else (false, c :: rest)
  | [] => (false, [])

/-- Check of the tail `(\.\d+)?$` after the integer digits: empty, or a dot
followed by one or more digits. -/
def fracOk : List Char → Bool
  | [] => true
  | c :: ds => c = '.' && !ds.isEmpty && ds.all Char.isDigit

/-- Fractional digits after the integer part: the digits behind the dot, empty
otherwise. -/
def fracPart : List Char → List Char
  | c :: ds => if c = '.' then ds else []
  | [] => []

/-- Anchored check of `^-?\d+(\.\d+)?$` from `parse_money`.  The greedy `\d+`
must stop exactly at the end or at a `'.'`, so taking the maximal digit run is
the unique possible decomposition. -/
def checkNum (cs : List Char) : Bool :=
  let cs1 := (signSplit cs).2
  !(cs1.takeWhile Char.isDigit).isEmpty && fracOk (cs1.dropWhile Char.isDigit)

/-- Value of `Decimal(t)` for a `t` accepted by `checkNum`, given as
(signed unscaled mantissa, decimal scale): `Decimal("7500.50")` is
`(750050, 2)`. -/
def decimalVal (cs : List Char) : Int × Nat :=
  let p := signSplit cs
  let ip := p.2.takeWhile Char.isDigit
  let fp := fracPart (p.2.dropWhile Char.isDigit)
  let m : Int := Int.ofNat (ofDigits (ip ++ fp))
  (if p.1 then -m else m, fp.length)

/-- Embedding of `parse_money(txt)`: strip and uppercase, delete `"€"`,
`"EUR"` and spaces, normalise the separators (drop grouping dots, turn the
decimal comma into a dot), validate against `^-?\d+(\.\d+)?$`, and read off
the `Decimal` value.  `none` models the `ValueError` raise. -/
def parse_money (txt : List Char) : Option (Int × Nat) :=
  let t0 := (pyStrip txt).map Char.toUpper
  let t1 := removeChar ' ' (removeEUR (removeChar '€' t0))
  let t2 :=
    if containsChar ',' t1 && containsChar '.' t1 then
      replaceChar ',' '.' (removeChar '.' t1)
    else if containsChar ',' t1 then
      replaceChar ',' '.' t1
    else t1
  if checkNum t2 then some (decimalVal t2) else none

/-- Embedding of `now_nl_date()`: `datetime.now(TZ_NL).strftime("%d-%m-%Y")`.
The wall-clock reading (day, month, year in Europe/Amsterdam) is a parameter
of the embedding; the function renders it as `DD-MM-YYYY`. -/
def now_nl_date (d m y : Nat) : List Char :=
  pad2 d ++ '-' :: pad2 m ++ '-' ::
    [digitChar (y / 1000 % 10), digitChar (y / 100 % 10),
     digitChar (y / 10 % 10), digitChar (y % 10)]

/-! Regex matchers.  Each `match*` function decides whether the pattern
matches at the start of the given suffix and returns the length of the
(greedy) match.  For these particular patterns the greedy backtracking match
is unique: `','` is not in the class `[\d\.\s]`, so the `+` run must extend
exactly to the first non-class character, which must then be the `','`. -/

/-- Matcher for the first money pattern `€\s?[\d\.\s]+,\d{2}`.  Since `\s` is
contained in the class `[\d\.\s]`, the optional leading space is absorbed
into the class run. -/
def matchMoney1 : List Char → Option Nat
  | [] => none
  | c0 :: rest =>
    if c0 = '€' then
      if (rest.takeWhile isMoneyClass).length = 0 then none
      else
        match rest.dropWhile isMoneyClass with
        | c1 :: d1 :: d2 :: _ =>
          if c1 = ',' && d1.isDigit && d2.isDigit then
            some (1 + (rest.takeWhile isMoneyClass).length + 3)
          else none
        | _ => none
    else none

/-- Matcher for the second money pattern `[\d\.\s]+,\d{2}\s?€`. -/
def matchMoney2 (s : List Char) : Option Nat :=
  if (s.takeWhile isMoneyClass).length = 0 then none
  else
    match s.dropWhile isMoneyClass with
    | c1 :: d1 :: d2 :: rest3 =>
      if c1 = ',' && d1.isDigit && d2.isDigit then
        match rest3 with
        | [] => none
        | c :: rest4 =>
          if isPySpace c then
            match rest4 with
            | e :: _ => if e = '€' then some ((s.takeWhile isMoneyClass).length + 5) else none
            | [] => none
          else if c = '€' then some ((s.takeWhile isMoneyClass).length + 4)
          else none
      else none
    | _ => none

/-- Matcher for the date patterns `\b\d{2}s\d{2}s\d{4}\b` where `s` is the
separator (`'-'` for `date_pat`, `'.'` for `date_pat_dots`).  `prevW` says
whether the character just before the current position is a word character
(for the leading `\b`); the trailing `\b` requires the next character to be
absent or a non-word character. -/
def matchDate (sep : Char) (prevW : Bool) : List Char → Option Nat
  | a :: b :: s1 :: c :: d :: s2 :: e :: f :: g :: h :: rest =>
    if !prevW && a.isDigit && b.isDigit && s1 = sep && c.isDigit && d.isDigit
        && s2 = sep && e.isDigit && f.isDigit && g.isDigit && h.isDigit
        && (match rest with | [] => true | r :: _ => !isWordChar r) then
      some 10
    else none
  | _ => none

/-- Whether the last character of `l` is a word character (`dflt` when `l` is
empty): used to maintain the word-boundary flag across a consumed match. -/
def lastCharWord (l : List Char) (dflt : Bool) : Bool :=
  match l.getLast? with
  | some c => isWordChar c
  | none => dflt

/-- Embedding of `pat.finditer(txt)`: scan left to right; at each position try
the matcher; on a match emit its span and resume at the match end.  `fuel` is
an upper bound on the number of steps (each step advances the position). -/
def scanAux (m : Bool → List Char → Option Nat) :
    Nat → Bool → Nat → List Char → List (Nat × Nat)
  | 0, _, _, _ => []
  | fuel + 1, prevW, pos, cs =>
    match m prevW cs with
    | some l => (pos, pos + l) :: scanAux m fuel (lastCharWord (cs.take l) prevW) (pos + l) (cs.drop l)
    | none =>
      match cs with
      | [] => []
      | c :: rest => scanAux m fuel (isWordChar c) (pos + 1) rest

/-- All match spans of the pattern in the text, left to right. -/
def scan (m : Bool → List Char → Option Nat) (txt : List Char) : List (Nat × Nat) :=
  scanAux m (txt.length + 1) false 0 txt

/-- Scan with a matcher that does not inspect word boundaries (the money
patterns). -/
def scanP (m : List Char → Option Nat) (txt : List Char) : List (Nat × Nat) :=
  scan (fun _ s => m s) txt

/-- Python `"202" in s`: does `s` contain the substring `"202"`? -/
def contains202 : List Char → Bool
  | '2' :: '0' :: '2' :: _ => true
  | _ :: rest => contains202 rest
  | [] => false

/-! Glyphs, hits and the per-line matching loop. -/

/-- One positioned character as produced by the layout extractor
(`pdfminer`'s `LTChar`): character, bounding box, font name and size. -/
structure Glyph where
  char : Char
  x0 : ℚ
  y0 : ℚ
  x1 : ℚ
  y1 : ℚ
  fontname : String
  size : ℚ
  deriving DecidableEq, Repr

inductive HitKind where
  | amount
  | date
  deriving DecidableEq, Repr

/-- Embedding of `re.sub(r"^[A-Z]{6}\+", "", fn)` from `_strip_subset` on the
character list: one anchored occurrence of a six-uppercase-letter prefix
followed by `'+'` is removed. -/
def strip_subsetL : List Char → List Char
  | a :: b :: c :: d :: e :: f :: p :: rest =>
    if p = '+' && isUpperAZ a && isUpperAZ b && isUpperAZ c && isUpperAZ d
        && isUpperAZ e && isUpperAZ f then rest
    else a :: b :: c :: d :: e :: f :: p :: rest
  | s => s

/-- Embedding of `_strip_subset(fn)`. -/
def strip_subset (s : String) : String :=
  String.mk (strip_subsetL s.data)

/-- Embedding of `_family_and_style(fontname)`: the source is a
"Simplistic mapping" that ignores its argument and always returns
`("TimesNewRomanPS", "regular")`. -/
def family_and_style (fontname : String) : String × String :=
  ("TimesNewRomanPS", "regular")

/-- Embedding of `_ensure_font(family, style)`: `"TimesNewRomanPS"` when that
font was registered (the TTF file exists), else the built-in
`"Times-Roman"`. -/
def ensure_font (registered : Bool) : String :=
  if registered then "TimesNewRomanPS" else "Times-Roman"

/-- Value of `float(os.getenv("NOTARY_OVERLAY_PCT", "0.265"))` in its default
configuration. -/
def NOTARY_OVERLAY_PCT : ℚ := 53 / 200

/-- Python list slice `l[a:b]`. -/
def slice (l : List α) (a b : Nat) : List α :=
  (l.drop a).take (b - a)

/-- Embedding of `statistics.median`: sort; odd length takes the middle
element, even length averages the two middle elements.  (Only ever applied to
nonempty lists; the `getD` default is unreachable there.) -/
def median (l : List ℚ) : ℚ :=
  let s := l.insertionSort (· ≤ ·)
  if s.length % 2 = 1 then s.getD (s.length / 2) 0
  else (s.getD (s.length / 2 - 1) 0 + s.getD (s.length / 2) 0) / 2

/-- One resolved hit, as built by the dictionary literal in the matching loop.
`span` records `m.span()`, the character span that was sliced out of the
line's glyph list to produce the covering glyphs. -/
structure Hit where
  kind : HitKind
  x0 : ℚ
  y0 : ℚ
  x1 : ℚ
  y1 : ℚ
  size : ℚ
  family : String
  style : String
  src : List Char
  k : ℚ
  span : Nat × Nat
  deriving DecidableEq, Repr

/-- The concatenated text of a line's glyphs
(`txt = "".join(c.get_text() for c in chars)`). -/
def lineText (chars : List Glyph) : List Char :=
  chars.map Glyph.char

/-- Build one hit from the glyphs covered by the span `[a, b)`:
`seg = chars[a:b]`, skipped when empty; bbox minima/maxima, median font size,
family/style from the first covering glyph's font name. -/
def mkHit (kind : HitKind) (chars : List Glyph) (a b : Nat) : Option Hit :=
  match slice chars a b with
  | [] => none
  | g :: gs =>
    some {
      kind := kind
      x0 := gs.foldl (fun acc c => min acc c.x0) g.x0
      x1 := gs.foldl (fun acc c => max acc c.x1) g.x1
      y0 := gs.foldl (fun acc c => min acc c.y0) g.y0
      y1 := gs.foldl (fun acc c => max acc c.y1) g.y1
      size := median ((g :: gs).map Glyph.size)
      family := (family_and_style g.fontname).1
      style := (family_and_style g.fontname).2
      src := slice (lineText chars) a b
      k := NOTARY_OVERLAY_PCT
      span := (a, b) }

/-- Amount hits of one money pattern on one line: every `finditer` span,
minus the year-suppression heuristic
(`if "202" in m.group(0) and len(m.group(0)) < 12: continue`) and the
empty-slice guard. -/
def amountHitsForPat (m : List Char → Option Nat) (chars : List Glyph) : List Hit :=
  (scanP m (lineText chars)).filterMap fun ab =>
    if contains202 (slice (lineText chars) ab.1 ab.2) && decide (ab.2 - ab.1 < 12) then none
    else mkHit HitKind.amount chars ab.1 ab.2

/-- Date hits of one date pattern (separator `sep`) on one line. -/
def dateHitsForPat (sep : Char) (chars : List Glyph) : List Hit :=
  (scan (matchDate sep) (lineText chars)).filterMap fun ab =>
    mkHit HitKind.date chars ab.1 ab.2

/-- All hits of one line, in the order the code appends them: symbol-left
amounts, symbol-right amounts, dash dates, dot dates.  An empty line is
skipped (`if not chars: continue`). -/
def lineHits (chars : List Glyph) : List Hit :=
  if chars.isEmpty then []
  else
    amountHitsForPat matchMoney1 chars ++ amountHitsForPat matchMoney2 chars
      ++ dateHitsForPat '-' chars ++ dateHitsForPat '.' chars

/-! Overlay rendering and page compositing. -/

/-- One input page: mediabox dimensions and the extracted text layout
(lines of glyphs, flattening the `LTTextContainer`/`LTTextLine` nesting,
which the code only ever iterates in order). -/
structure PageIn where
  width : ℚ
  height : ℚ
  layout : List (List Glyph)
  deriving DecidableEq, Repr

/-- All hits of one page, in line order (`page_hits` accumulated over the
page's lines; the `matches_by_page` dictionary keyed by page index with the
`if page_hits:` guard and the later `.get(i, [])` is equivalent to this
per-page list). -/
def pageHits (p : PageIn) : List Hit :=
  (p.layout.map lineHits).flatten

inductive Color where
  | white
  | black
  deriving DecidableEq, Repr

/-- Drawing operations emitted on the overlay canvas for a hit: the blanking
rectangle (`canv.rect(..., fill=1, stroke=0)` under white fill/stroke color)
and the replacement text object. -/
inductive DrawOp where
  | rect (x y w h : ℚ) (color : Color) (fill stroke : Bool)
  | text (x y : ℚ) (font : String) (size : ℚ) (str : List Char)
  deriving DecidableEq, Repr

/-- Embedding of the per-hit drawing code: padding, white blanking rectangle,
then the replacement text at the anchored baseline.  `currentDate` is the
`current_date` string computed once per invocation; `cents` models
`new_amount_float`; `registered` tells whether the TimesNewRomanPS TTF was
registered (for `_ensure_font`). -/
def opsForHit (currentDate : List Char) (cents : Nat) (registered : Bool) (h : Hit) :
    List DrawOp :=
  let pad := max (6 / 5 : ℚ) (9 / 50 * h.size)
  let newText := match h.kind with
    | HitKind.amount => format_like h.src cents
    | HitKind.date => currentDate
  [DrawOp.rect (h.x0 - pad) (h.y0 - pad) ((h.x1 - h.x0) + 2 * pad)
      ((h.y1 - h.y0) + 2 * pad) Color.white true false,
   DrawOp.text h.x0 (h.y0 + (h.y1 - h.y0) * h.k) (ensure_font registered) h.size newText]

/-- One page of the overlay document produced by the reportlab canvas. -/
structure OverlayPage where
  width : ℚ
  height : ℚ
  ops : List DrawOp
  deriving DecidableEq, Repr

/-- Embedding of the overlay-building loop: the canvas is created once, when
`i == 0`, with `pagesize=(w, h)` of the FIRST page; `showPage()` never
changes the page size, so every overlay page carries the first page's
dimensions.  The per-page `w`/`h` read from `page.mediabox` are not used for
`i > 0`.  For an empty document `canv` stays `None` (see `notary`). -/
def overlayFor (currentDate : List Char) (cents : Nat) (registered : Bool)
    (pages : List PageIn) : List OverlayPage :=
  match pages with
  | [] => []
  | p0 :: _ =>
    pages.map fun p =>
      { width := p0.width
        height := p0.height
        ops := ((pageHits p).map (opsForHit currentDate cents registered)).flatten }

/-- One output page: the original page (dimensions untouched by
`merge_page`), plus the overlay page merged on top of it, if any. -/
structure OutPage where
  width : ℚ
  height : ℚ
  base : PageIn
  overlay : Option OverlayPage
  deriving DecidableEq, Repr

/-- Embedding of the compositing loop
`for i, page in enumerate(reader.pages): if i < len(over_reader.pages):
page.merge_page(over_reader.pages[i]); writer.add_page(page)`.
Walking the two lists in lockstep is the same as the `i < len(...)` guard:
an original page beyond the end of the overlay list is added unmerged, and
surplus overlay pages are dropped.  No divergence check exists. -/
def composePages : List PageIn → List OverlayPage → List OutPage
  | [], _ => []
  | p :: ps, [] => { width := p.width, height := p.height, base := p, overlay := none } :: composePages ps []
  | p :: ps, ov :: ovs => { width := p.width, height := p.height, base := p, overlay := some ov } :: composePages ps ovs

/-- Embedding of `notary_replace_amount_pdf_purepy` at the document level:
extract hits, draw one overlay page per input page, composite.  On an input
with zero pages the Python code fails (`canv` is still `None` when
`canv.save()` runs), modelled as `none`. -/
def notary (currentDate : List Char) (cents : Nat) (registered : Bool)
    (pages : List PageIn) : Option (List OutPage) :=
  match pages with
  | [] => none
  | _ :: _ => some (composePages pages (overlayFor currentDate cents registered pages))

/-- Width and height of a page record, for stating dimension preservation. -/
def pageDims (p : PageIn) : ℚ × ℚ := (p.width, p.height)

/-- Width and height of an output page. -/
def outDims (p : OutPage) : ℚ × ℚ := (p.width, p.height)

/-- Width and height of an overlay page. -/
def overlayDims (p : OverlayPage) : ℚ × ℚ := (p.width, p.height)

/-- Two character spans overlap when some position lies in both. -/
def spansOverlap (x y : Nat × Nat) : Prop :=
  max x.1 y.1 < min x.2 y.2

/-! Concrete inputs used by witnesses and counterexamples.  `mkLine` lays a
string out as one glyph per character with unit-width boxes at integer
offsets, font `"F"`, size 10. -/

/-- A synthetic extracted line for a given text. -/
def mkLine (s : List Char) : List Glyph :=
  s.enum.map fun p => ⟨p.2, (p.1 : ℚ), 0, ((p.1 + 1 : Nat) : ℚ), 1, "F", 10⟩

/-- Line whose text is `"€ 5.000,00 €"`: both money patterns match, on
overlapping spans. -/
def lineOverlap : List Glyph := mkLine ("€ 5.000,00 €".data)

/-- Line whose text is `"€ 202,00"`: the symbol-left money pattern matches but
the year-suppression heuristic discards the match. -/
def line202 : List Glyph := mkLine ("€ 202,00".data)

/-- Line whose text is `"€ 50,00"`: one symbol-left amount hit covering all
seven glyphs. -/
def line500 : List Glyph := mkLine ("€ 50,00".data)

/-- The hit produced on `line500`. -/
def hit500 : Hit :=
  ⟨HitKind.amount, 0, 0, 7, 1, 10, "TimesNewRomanPS", "regular",
    "€ 50,00".data, 53 / 200, (0, 7)⟩

/-- A date hit with arbitrary concrete geometry. -/
def hitDate : Hit :=
  ⟨HitKind.date, 5, 7, 50, 17, 12, "TimesNewRomanPS", "regular",
    "01-01-2024".data, 53 / 200, (3, 13)⟩

/-- A glyph whose font name carries a subsetting prefix. -/
def glyphSub : Glyph := ⟨'5', 0, 0, 1, 1, "ABCDEF+Arial-Bold", 10⟩

/-- The hit produced from `[glyphSub]` on the span `(0, 1)`. -/
def hitSub : Hit :=
  ⟨HitKind.amount, 0, 0, 1, 1, 10, "TimesNewRomanPS", "regular", ['5'], 53 / 200, (0, 1)⟩

/-- An A4-sized page with no text. -/
def pageA : PageIn := ⟨595, 842, []⟩

/-- A second A4-sized page with no text. -/
def pageB : PageIn := ⟨595, 842, []⟩

/-- A page with different dimensions and no text. -/
def pageC : PageIn := ⟨100, 200, []⟩

/-- An empty A4-sized overlay page. -/
def ovA : OverlayPage := ⟨595, 842, []⟩

/-! Helper lemmas. -/

theorem takeWhile_append_all {p : Char → Bool} {l1 : List Char} (l2 : List Char)
    (h : l1.all p = true) : (l1 ++ l2).takeWhile p = l1 ++ l2.takeWhile p := by
  induction l1 with
  | nil => simp
  | cons c t ih =>
    simp only [List.all_cons, Bool.and_eq_true] at h
    simp [List.takeWhile_cons, h.1, ih h.2]

theorem dropWhile_append_all {p : Char → Bool} {l1 : List Char} (l2 : List Char)
    (h : l1.all p = true) : (l1 ++ l2).dropWhile p = l2.dropWhile p := by
  induction l1 with
  | nil => simp
  | cons c t ih =>
    simp only [List.all_cons, Bool.and_eq_true] at h
    simp [List.dropWhile_cons, h.1, ih h.2]

theorem takeWhile_cons_neg {p : Char → Bool} (c : Char) (l : List Char)
    (h : p c = false) : (c :: l).takeWhile p = [] := by
  simp [List.takeWhile_cons, h]

theorem dropWhile_cons_neg {p : Char → Bool} (c : Char) (l : List Char)
    (h : p c = false) : (c :: l).dropWhile p = c :: l := by
  simp [List.dropWhile_cons, h]

theorem digitChar_isDigit {k : Nat} (h : k < 10) : (digitChar k).isDigit = true := by
  interval_cases k <;> decide

theorem digitVal_digitChar {k : Nat} (h : k < 10) : digitVal (digitChar k) = k := by
  interval_cases k <;> decide

theorem isDigit_moneyClass {c : Char} (h : c.isDigit = true) : isMoneyClass c = true := by
  simp [isMoneyClass, h]

theorem isDigit_not_comma {c : Char} (h : c.isDigit = true) : c ≠ ',' := by
  intro e; subst e; simp at h

theorem isDigit_not_dot {c : Char} (h : c.isDigit = true) : c ≠ '.' := by
  intro e; subst e; simp at h

theorem isDigit_not_euro {c : Char} (h : c.isDigit = true) : c ≠ '€' := by
  intro e; subst e; simp at h

theorem isDigit_not_E {c : Char} (h : c.isDigit = true) : c ≠ 'E' := by
  intro e; subst e; simp at h

theorem isDigit_not_space {c : Char} (h : c.isDigit = true) : isPySpace c = false := by
  simp only [isPySpace, Bool.or_eq_false_iff, decide_eq_false_iff_not]
  refine ⟨⟨⟨⟨⟨?_, ?_⟩, ?_⟩, ?_⟩, ?_⟩, ?_⟩ <;>
    (intro e; subst e; exact absurd h (by decide))

theorem toUpper_digit {c : Char} (h : c.isDigit = true) : c.toUpper = c := by
  have h0 : 48 ≤ c.toNat ∧ c.toNat ≤ 57 := by
    simpa [Char.isDigit, Char.le_def, Char.toNat] using h
  simp only [Char.toUpper]
  split
  · rename_i hc
    exact absurd hc (by omega)
  · rfl

theorem ofDigits_append (l1 l2 : List Char) :
    ofDigits (l1 ++ l2) =
      ofDigits l1 * 10 ^ l2.length + ofDigits l2 := by
  suffices h : ∀ (l : List Char) (a : Nat),
      l.foldl (fun a c => 10 * a + digitVal c) a = a * 10 ^ l.length + ofDigits l by
    simp only [ofDigits, List.foldl_append]
    rw [h l2 (List.foldl (fun a c => 10 * a + digitVal c) 0 l1)]
    rfl
  intro l
  induction l with
  | nil => intro a; simp [ofDigits]
  | cons c t ih =>
    intro a
    simp only [List.foldl_cons, List.length_cons, ofDigits]
    rw [ih (10 * a + digitVal c), ih (10 * 0 + digitVal c)]
    ring

theorem toDigitsRev_all_digit (fuel n : Nat) :
    (toDigitsRev fuel n).all Char.isDigit = true := by
  induction fuel generalizing n with
  | zero => simp [toDigitsRev]
  | succ fuel ih =>
    simp only [toDigitsRev]
    split
    · simp
    · simp [List.all_cons, digitChar_isDigit (Nat.mod_lt _ (by omega)), ih]

theorem natDigits_all_digit (n : Nat) : (natDigits n).all Char.isDigit = true := by
  simp only [natDigits]
  split
  · decide
  · simpa using toDigitsRev_all_digit n n

theorem natDigits_ne_nil (n : Nat) : natDigits n ≠ [] := by
  simp only [natDigits]
  split
  · simp
  · simp only [ne_eq, List.reverse_eq_nil_iff]
    rcases n with _ | n
    · simp_all
    · simp [toDigitsRev]

theorem ofDigits_toDigitsRev {fuel n : Nat} (h : n ≤ fuel) :
    ofDigits (toDigitsRev fuel n).reverse = n := by
  induction fuel generalizing n with
  | zero =>
    have : n = 0 := by omega
    subst this; simp [toDigitsRev, ofDigits]
  | succ fuel ih =>
    simp only [toDigitsRev]
    split
    · simp_all [ofDigits]
    · rename_i hn
      have hd : n / 10 ≤ fuel := by
        have hlt : n / 10 < n := Nat.div_lt_self (Nat.pos_of_ne_zero hn) (by norm_num)
        omega
      simp only [List.reverse_cons]
      rw [ofDigits_append, ih hd]
      simp [ofDigits, digitVal_digitChar (Nat.mod_lt n (by omega) : n % 10 < 10)]
      omega

theorem ofDigits_natDigits (n : Nat) : ofDigits (natDigits n) = n := by
  simp only [natDigits]
  split
  · simp_all [ofDigits, digitVal]
  · exact ofDigits_toDigitsRev le_rfl

theorem group3Rev_all {p : Char → Bool} (hdot : p '.' = true) :
    ∀ {ds : List Char}, ds.all p = true → (group3Rev ds).all p = true := by
  intro ds
  induction ds using group3Rev.induct with
  | case1 => simp [group3Rev]
  | case2 a => simp [group3Rev]
  | case3 a b => simp [group3Rev]
  | case4 a b c => simp [group3Rev]
  | case5 a b c d rest ih =>
    intro h
    simp only [List.all_cons, Bool.and_eq_true] at h
    obtain ⟨ha, hb, hc, hd, hrest⟩ := h
    simp only [group3Rev, List.all_cons, Bool.and_eq_true]
    exact ⟨ha, hb, hc, hdot, ih (by simp [List.all_cons, hd, hrest])⟩

theorem group3_all {p : Char → Bool} (hdot : p '.' = true) {ds : List Char}
    (h : ds.all p = true) : (group3 ds).all p = true := by
  simp only [group3, List.all_reverse]
  exact group3Rev_all hdot (by simpa [List.all_reverse] using h)

theorem group3Rev_ne_nil {ds : List Char} (h : ds ≠ []) : group3Rev ds ≠ [] := by
  induction ds using group3Rev.induct <;> simp [group3Rev]
  simp_all

theorem group3_ne_nil {ds : List Char} (h : ds ≠ []) : group3 ds ≠ [] := by
  simp only [group3, ne_eq, List.reverse_eq_nil_iff]
  exact group3Rev_ne_nil (by simpa using h)

theorem filter_group3Rev (q : Char → Bool) (hq : q '.' = false) :
    ∀ ds : List Char, (group3Rev ds).filter q = ds.filter q := by
  intro ds
  induction ds using group3Rev.induct with
  | case1 => rfl
  | case2 a => rfl
  | case3 a b => rfl
  | case4 a b c => rfl
  | case5 a b c d rest ih =>
    simp only [group3Rev, List.filter_cons, hq]
    rw [ih]
    simp only [List.filter_cons, Bool.false_eq_true, if_false]

theorem removeChar_dot_group3 (ds : List Char) :
    removeChar '.' (group3 ds) = removeChar '.' ds := by
  simp only [removeChar, group3, List.filter_reverse]
  rw [filter_group3Rev _ (by decide)]
  simp [List.filter_reverse]

/-- Characters that can occur in a formatted money string. -/
def goodChar (c : Char) : Bool :=
  c.isDigit || c = '.' || c = ',' || c = ' ' || c = '€'

theorem toUpper_good {c : Char} (h : goodChar c = true) : c.toUpper = c := by
  simp only [goodChar, Bool.or_eq_true, decide_eq_true_eq] at h
  rcases h with ((((h | h) | h) | h) | h)
  · exact toUpper_digit h
  all_goals subst h; decide

theorem map_toUpper_good {s : List Char} (h : s.all goodChar = true) :
    s.map Char.toUpper = s := by
  induction s with
  | nil => rfl
  | cons c t ih =>
    simp only [List.all_cons, Bool.and_eq_true] at h
    simp [toUpper_good h.1, ih h.2]

theorem removeEUR_no_E {s : List Char} (h : ∀ c ∈ s, c ≠ 'E') : removeEUR s = s := by
  induction s using removeEUR.induct with
  | case1 rest ih => exact absurd (h 'E' (by simp)) (by simp)
  | case2 c rest hne ih =>
    simp only [removeEUR]
    rw [ih fun x hx => h x (List.mem_cons_of_mem c hx)]
  | case3 => rfl

theorem removeChar_eq_self {x : Char} {s : List Char} (h : ∀ c ∈ s, c ≠ x) :
    removeChar x s = s := by
  simp only [removeChar]
  rw [List.filter_eq_self]
  intro a ha
  simpa using h a ha

theorem replaceChar_eq_self {a b : Char} {s : List Char} (h : ∀ c ∈ s, c ≠ a) :
    replaceChar a b s = s := by
  simp only [replaceChar]
  rw [List.map_congr_left fun c hc => if_neg (h c hc)]
  exact List.map_id s

theorem body_all_digitDot (n : Nat) :
    (group3 (natDigits n)).all (fun c => c.isDigit || c = '.') = true := by
  apply group3_all (by decide)
  have h := natDigits_all_digit n
  simp only [List.all_eq_true] at h ⊢
  intro c hc
  simp [h c hc]

theorem body_all_moneyClass (n : Nat) :
    (group3 (natDigits n)).all isMoneyClass = true := by
  have h := body_all_digitDot n
  simp only [List.all_eq_true] at h ⊢
  intro c hc
  rcases Bool.or_eq_true_iff.mp (h c hc) with hd | hd
  · exact isDigit_moneyClass hd
  · simp only [decide_eq_true_eq] at hd
    subst hd; decide

theorem body_ne_nil (n : Nat) : group3 (natDigits n) ≠ [] :=
  group3_ne_nil (natDigits_ne_nil n)

theorem matchMoney1_dutch (cents : Nat) :
    matchMoney1 ('€' :: ' ' :: dutchNumber cents) =
      some (('€' :: ' ' :: dutchNumber cents).length) := by
  have hba := body_all_moneyClass (cents / 100)
  have hd1 : (digitChar (cents % 100 / 10)).isDigit = true :=
    digitChar_isDigit (by omega)
  have hd2 : (digitChar (cents % 100 % 10)).isDigit = true :=
    digitChar_isDigit (by omega)
  have tw : (' ' :: (group3 (natDigits (cents / 100)) ++
      ',' :: pad2 (cents % 100))).takeWhile isMoneyClass =
      ' ' :: group3 (natDigits (cents / 100)) := by
    rw [List.takeWhile_cons, if_pos (by decide), takeWhile_append_all _ hba,
      takeWhile_cons_neg ',' _ (by decide), List.append_nil]
  have dw : (' ' :: (group3 (natDigits (cents / 100)) ++
      ',' :: pad2 (cents % 100))).dropWhile isMoneyClass =
      ',' :: pad2 (cents % 100) := by
    rw [List.dropWhile_cons, if_pos (by decide), dropWhile_append_all _ hba,
      dropWhile_cons_neg ',' _ (by decide)]
  simp only [dutchNumber] at tw dw ⊢
  simp only [matchMoney1]
  rw [tw, dw]
  simp only [pad2, List.length_cons]
  rw [if_neg (Nat.succ_ne_zero _)]
  simp only [hd1, hd2, decide_True, Bool.and_self, if_true]
  simp only [Option.some.injEq, List.length_append, List.length_cons, List.length_nil]
  omega

theorem matchMoney2_dutch (cents : Nat) :
    matchMoney2 (dutchNumber cents ++ ' ' :: '€' :: []) =
      some ((dutchNumber cents ++ ' ' :: '€' :: []).length) := by
  have hba := body_all_moneyClass (cents / 100)
  have hbn := body_ne_nil (cents / 100)
  have hd1 : (digitChar (cents % 100 / 10)).isDigit = true :=
    digitChar_isDigit (by omega)
  have hd2 : (digitChar (cents % 100 % 10)).isDigit = true :=
    digitChar_isDigit (by omega)
  have tw : ((group3 (natDigits (cents / 100)) ++ ',' :: pad2 (cents % 100)) ++
      ' ' :: '€' :: []).takeWhile isMoneyClass =
      group3 (natDigits (cents / 100)) := by
    rw [List.append_assoc]
    rw [takeWhile_append_all _ hba]
    rw [show (',' :: pad2 (cents % 100) ++ ' ' :: '€' :: []) =
      ',' :: (pad2 (cents % 100) ++ ' ' :: '€' :: []) from rfl]
    rw [takeWhile_cons_neg ',' _ (by decide), List.append_nil]
  have dw : ((group3 (natDigits (cents / 100)) ++ ',' :: pad2 (cents % 100)) ++
      ' ' :: '€' :: []).dropWhile isMoneyClass =
      ',' :: (pad2 (cents % 100) ++ ' ' :: '€' :: []) := by
    rw [List.append_assoc]
    rw [dropWhile_append_all _ hba]
    rw [show (',' :: pad2 (cents % 100) ++ ' ' :: '€' :: []) =
      ',' :: (pad2 (cents % 100) ++ ' ' :: '€' :: []) from rfl]
    rw [dropWhile_cons_neg ',' _ (by decide)]
  simp only [dutchNumber] at tw dw ⊢
  simp only [matchMoney2]
  rw [tw, dw]
  rw [if_neg (by simpa [List.length_eq_zero] using hbn)]
  simp only [pad2, List.cons_append, List.nil_append]
  simp only [hd1, hd2, decide_True, Bool.and_self, if_true,
    show isPySpace ' ' = true from by decide]
  simp only [Option.some.injEq, List.length_append, List.length_cons, List.length_nil]

theorem removeChar_cons_self (x : Char) (l : List Char) :
    removeChar x (x :: l) = removeChar x l := by
  simp [removeChar]

theorem removeChar_cons_ne (x c : Char) (l : List Char) (h : c ≠ x) :
    removeChar x (c :: l) = c :: removeChar x l := by
  simp [removeChar, h]

theorem removeChar_append (x : Char) (l1 l2 : List Char) :
    removeChar x (l1 ++ l2) = removeChar x l1 ++ removeChar x l2 := by
  simp [removeChar]

theorem body_mem_digitDot {n : Nat} {c : Char} (hc : c ∈ group3 (natDigits n)) :
    c.isDigit = true ∨ c = '.' := by
  have h := body_all_digitDot n
  simp only [List.all_eq_true] at h
  have := h c hc
  rcases Bool.or_eq_true_iff.mp this with hd | hd
  · exact Or.inl hd
  · exact Or.inr (by simpa using hd)

theorem pad2_all_digit {f : Nat} (h : f < 100) : (pad2 f).all Char.isDigit = true := by
  simp [pad2, digitChar_isDigit (show f / 10 < 10 by omega),
    digitChar_isDigit (show f % 10 < 10 by omega)]

theorem pyStrip_eq_self {s : List Char} (c0 : Char) (t0 : List Char) (l1 : List Char)
    (c1 : Char) (h1 : s = c0 :: t0) (hc0 : isPySpace c0 = false)
    (h2 : s = l1 ++ [c1]) (hc1 : isPySpace c1 = false) : pyStrip s = s := by
  have hd : s.dropWhile isPySpace = s := by
    rw [h1, dropWhile_cons_neg _ _ hc0]
  have hr : s.reverse.dropWhile isPySpace = s.reverse := by
    rw [h2]
    simp only [List.reverse_append, List.reverse_cons, List.reverse_nil,
      List.nil_append, List.cons_append, List.nil_append]
    rw [dropWhile_cons_neg _ _ hc1]
  simp only [pyStrip, hd, hr, List.reverse_reverse]

theorem dutch_all_good (cents : Nat) : (dutchNumber cents).all goodChar = true := by
  simp only [dutchNumber, List.all_append, List.all_cons, Bool.and_eq_true]
  refine ⟨?_, by decide, ?_⟩
  · have h := body_all_digitDot (cents / 100)
    simp only [List.all_eq_true] at h ⊢
    intro c hc
    rcases body_mem_digitDot hc with hd | hd
    · simp [goodChar, hd]
    · subst hd; decide
  · have h := pad2_all_digit (show cents % 100 < 100 by omega)
    simp only [List.all_eq_true] at h ⊢
    intro c hc
    simp [goodChar, h c hc]

theorem t1_norm (cents : Nat) (s : List Char)
    (hs : s = '€' :: ' ' :: dutchNumber cents ∨ s = dutchNumber cents ++ ' ' :: '€' :: []) :
    removeChar ' ' (removeEUR (removeChar '€' ((pyStrip s).map Char.toUpper))) =
      dutchNumber cents := by
  have hbn := body_ne_nil (cents / 100)
  obtain ⟨b0, bt, hb⟩ := List.exists_cons_of_ne_nil hbn
  have hb0 : b0.isDigit = true ∨ b0 = '.' := body_mem_digitDot (by rw [hb]; simp)
  have hb0s : isPySpace b0 = false := by
    rcases hb0 with hd | hd
    · exact isDigit_not_space hd
    · subst hd; decide
  have hdd : (pad2 (cents % 100)).all Char.isDigit = true :=
    pad2_all_digit (by omega)
  have hd2 : (digitChar (cents % 100 % 10)).isDigit = true := digitChar_isDigit (by omega)
  -- strip is the identity on both shapes
  have hstrip : pyStrip s = s := by
    rcases hs with h | h
    · refine pyStrip_eq_self '€' (' ' :: dutchNumber cents)
        ('€' :: ' ' :: group3 (natDigits (cents / 100)) ++ [',', digitChar (cents % 100 / 10)])
        (digitChar (cents % 100 % 10)) h (by decide) ?_ (isDigit_not_space hd2)
      rw [h]
      simp [dutchNumber, pad2, List.append_assoc]
    · refine pyStrip_eq_self b0 (bt ++ ',' :: pad2 (cents % 100) ++ ' ' :: '€' :: [])
        (dutchNumber cents ++ [' ']) '€' ?_ hb0s ?_ (by decide)
      · rw [h]
        simp [dutchNumber, hb]
      · rw [h]
        simp
  -- uppercase is the identity (all characters are digits or the symbols . , space €)
  have hgood : s.all goodChar = true := by
    rcases hs with h | h <;> subst h <;>
      simp only [List.all_cons, List.all_append, Bool.and_eq_true, dutch_all_good cents,
        true_and, and_true] <;>
      exact ⟨by decide, by decide⟩
  rw [hstrip, map_toUpper_good hgood]
  -- character inventory of the number kernel
  have hker : ∀ c ∈ dutchNumber cents, c ≠ '€' ∧ c ≠ 'E' ∧ c ≠ ' ' := by
    intro c hc
    simp only [dutchNumber, List.mem_append, List.mem_cons] at hc
    rcases hc with hc | hc | hc
    · rcases body_mem_digitDot hc with hd | hd
      · exact ⟨isDigit_not_euro hd, isDigit_not_E hd,
          fun e => by subst e; simp at hd⟩
      · subst hd; refine ⟨by decide, by decide, by decide⟩
    · subst hc; refine ⟨by decide, by decide, by decide⟩
    · have : c.isDigit = true := by
        have := hdd
        simp only [List.all_eq_true] at this
        exact this c hc
      exact ⟨isDigit_not_euro this, isDigit_not_E this,
        fun e => by subst e; simp at this⟩
  -- remove the euro sign, the (absent) EUR, and the space
  rcases hs with h | h
  · subst h
    rw [removeChar_cons_self, removeChar_cons_ne _ _ _ (by decide),
      removeChar_eq_self (fun c hc => (hker c hc).1)]
    rw [removeEUR_no_E ?hE]
    case hE =>
      intro c hc
      rcases List.mem_cons.mp hc with hc | hc
      · subst hc; decide
      · exact (hker c hc).2.1
    rw [removeChar_cons_self, removeChar_eq_self (fun c hc => (hker c hc).2.2)]
  · subst h
    rw [removeChar_append, removeChar_eq_self (fun c hc => (hker c hc).1),
      show removeChar '€' (' ' :: '€' :: []) = [' '] from by decide]
    rw [removeEUR_no_E ?hE2]
    case hE2 =>
      intro c hc
      rcases List.mem_append.mp hc with hc | hc
      · exact (hker c hc).2.1
      · simp only [List.mem_singleton] at hc
        subst hc; decide
    rw [removeChar_append, removeChar_eq_self (fun c hc => (hker c hc).2.2),
      show removeChar ' ' [' '] = [] from by decide, List.append_nil]

theorem replaceChar_append (a b : Char) (l1 l2 : List Char) :
    replaceChar a b (l1 ++ l2) = replaceChar a b l1 ++ replaceChar a b l2 := by
  simp [replaceChar]

theorem replaceChar_cons_self (a b : Char) (l : List Char) :
    replaceChar a b (a :: l) = b :: replaceChar a b l := by
  simp [replaceChar]

theorem natDigits_not_dot {n : Nat} : ∀ c ∈ natDigits n, c ≠ '.' := by
  intro c hc
  have h := natDigits_all_digit n
  simp only [List.all_eq_true] at h
  exact isDigit_not_dot (h c hc)

theorem natDigits_not_comma {n : Nat} : ∀ c ∈ natDigits n, c ≠ ',' := by
  intro c hc
  have h := natDigits_all_digit n
  simp only [List.all_eq_true] at h
  exact isDigit_not_comma (h c hc)

theorem pad2_not_dot {f : Nat} (hf : f < 100) : ∀ c ∈ pad2 f, c ≠ '.' := by
  intro c hc
  have h := pad2_all_digit hf
  simp only [List.all_eq_true] at h
  exact isDigit_not_dot (h c hc)

theorem pad2_not_comma {f : Nat} (hf : f < 100) : ∀ c ∈ pad2 f, c ≠ ',' := by
  intro c hc
  have h := pad2_all_digit hf
  simp only [List.all_eq_true] at h
  exact isDigit_not_comma (h c hc)

/-- Normal form of the separator-normalisation step of `parse_money` on a
formatted Dutch number: grouping dots removed, decimal comma turned into a
dot. -/
theorem t2_norm (cents : Nat) :
    (if containsChar ',' (dutchNumber cents) && containsChar '.' (dutchNumber cents) then
      replaceChar ',' '.' (removeChar '.' (dutchNumber cents))
    else if containsChar ',' (dutchNumber cents) then
      replaceChar ',' '.' (dutchNumber cents)
    else dutchNumber cents) =
      natDigits (cents / 100) ++ '.' :: pad2 (cents % 100) := by
  have hcomma : containsChar ',' (dutchNumber cents) = true := by
    simp [containsChar, dutchNumber, List.any_append, List.any_cons]
  have hrm : removeChar '.' (dutchNumber cents) =
      natDigits (cents / 100) ++ ',' :: pad2 (cents % 100) := by
    rw [dutchNumber, removeChar_append, removeChar_dot_group3,
      removeChar_eq_self natDigits_not_dot,
      removeChar_cons_ne _ _ _ (by decide),
      removeChar_eq_self (pad2_not_dot (by omega))]
  have hrp : replaceChar ',' '.' (natDigits (cents / 100) ++ ',' :: pad2 (cents % 100)) =
      natDigits (cents / 100) ++ '.' :: pad2 (cents % 100) := by
    rw [replaceChar_append, replaceChar_eq_self natDigits_not_comma,
      replaceChar_cons_self, replaceChar_eq_self (pad2_not_comma (by omega))]
  by_cases hdot : containsChar '.' (dutchNumber cents) = true
  · rw [if_pos (by simp [hcomma, hdot]), hrm, hrp]
  · have hdot2 : containsChar '.' (dutchNumber cents) = false :=
      Bool.eq_false_iff.mpr hdot
    have hid : removeChar '.' (dutchNumber cents) = dutchNumber cents := by
      apply removeChar_eq_self
      intro c hc
      simp only [containsChar, List.any_eq_false, decide_eq_true_eq] at hdot2
      exact hdot2 c hc
    rw [if_neg (by simp [hdot2]), if_pos hcomma]
    rw [show dutchNumber cents = natDigits (cents / 100) ++ ',' :: pad2 (cents % 100) by
      rw [← hid, hrm]]
    exact hrp

theorem natDigits_head_not_minus {n : Nat} {c0 : Char} {t0 : List Char}
    (hc : natDigits n = c0 :: t0) : (c0 = '-') = False := by
  have h := natDigits_all_digit n
  rw [hc] at h
  simp only [List.all_cons, Bool.and_eq_true] at h
  simp only [eq_iff_iff, iff_false]
  intro e
  subst e
  exact absurd h.1 (by decide)

theorem checkNum_canon (cents : Nat) :
    checkNum (natDigits (cents / 100) ++ '.' :: pad2 (cents % 100)) = true := by
  obtain ⟨c0, t0, hc⟩ := List.exists_cons_of_ne_nil (natDigits_ne_nil (cents / 100))
  have hsign : signSplit (natDigits (cents / 100) ++ '.' :: pad2 (cents % 100)) =
      (false, natDigits (cents / 100) ++ '.' :: pad2 (cents % 100)) := by
    rw [hc, List.cons_append, signSplit, if_neg (by simp [natDigits_head_not_minus hc]),
      ← List.cons_append, ← hc]
  simp only [checkNum, hsign]
  rw [takeWhile_append_all _ (natDigits_all_digit _),
    takeWhile_cons_neg '.' _ (by decide), List.append_nil,
    dropWhile_append_all _ (natDigits_all_digit _),
    dropWhile_cons_neg '.' _ (by decide)]
  simp only [fracOk, pad2, hc]
  simp only [List.isEmpty_cons, List.all_cons, List.all_nil, Bool.and_true,
    Bool.not_false, Bool.true_and, Bool.and_eq_true, decide_eq_true_eq]
  refine ⟨by decide, digitChar_isDigit (by omega), digitChar_isDigit (by omega)⟩

theorem ofDigits_pad2 {f : Nat} (h : f < 100) : ofDigits (pad2 f) = f := by
  simp only [ofDigits, pad2, List.foldl_cons, List.foldl_nil]
  rw [digitVal_digitChar (show f / 10 < 10 by omega),
    digitVal_digitChar (show f % 10 < 10 by omega)]
  omega

theorem decimalVal_canon (cents : Nat) :
    decimalVal (natDigits (cents / 100) ++ '.' :: pad2 (cents % 100)) =
      (Int.ofNat cents, 2) := by
  obtain ⟨c0, t0, hc⟩ := List.exists_cons_of_ne_nil (natDigits_ne_nil (cents / 100))
  have hsign : signSplit (natDigits (cents / 100) ++ '.' :: pad2 (cents % 100)) =
      (false, natDigits (cents / 100) ++ '.' :: pad2 (cents % 100)) := by
    rw [hc, List.cons_append, signSplit, if_neg (by simp [natDigits_head_not_minus hc]),
      ← List.cons_append, ← hc]
  simp only [decimalVal, hsign]
  rw [takeWhile_append_all _ (natDigits_all_digit _),
    takeWhile_cons_neg '.' _ (by decide), List.append_nil,
    dropWhile_append_all _ (natDigits_all_digit _),
    dropWhile_cons_neg '.' _ (by decide)]
  rw [fracPart, if_pos rfl]
  rw [ofDigits_append, ofDigits_natDigits, ofDigits_pad2 (show cents % 100 < 100 by omega)]
  simp only [pad2, List.length_cons, List.length_nil, if_neg Bool.false_ne_true]
  norm_num
  omega

/-- Round trip of `parse_money` over `_format_like` output: the numeric value
comes back exactly, as a two-decimal `Decimal`. -/
theorem parse_money_format (cents : Nat) (src : List Char) :
    parse_money (format_like src cents) = some (Int.ofNat cents, 2) := by
  have ht1 : removeChar ' ' (removeEUR (removeChar '€'
      ((pyStrip (format_like src cents)).map Char.toUpper))) = dutchNumber cents := by
    apply t1_norm
    simp only [format_like]
    by_cases h : eurLeft src = true
    · rw [if_pos h]; exact Or.inl rfl
    · rw [if_neg h]; exact Or.inr rfl
  simp only [parse_money, ht1, t2_norm cents, checkNum_canon cents, if_true,
    decimalVal_canon cents]

/-! Scanner properties: `finditer` spans are positive-width, in-bounds, and
pairwise non-overlapping in left-to-right order, for any matcher that
consumes at least one and at most all remaining characters. -/

theorem length_take_drop_while (p : Char → Bool) (s : List Char) :
    s.length = (s.takeWhile p).length + (s.dropWhile p).length := by
  rw [← List.length_append, List.takeWhile_append_dropWhile]

theorem scanAux_mem {m : Bool → List Char → Option Nat}
    (hm : ∀ p s l, m p s = some l → 0 < l ∧ l ≤ s.length) :
    ∀ (fuel : Nat) (prevW : Bool) (pos : Nat) (cs : List Char),
      ∀ ab ∈ scanAux m fuel prevW pos cs,
        pos ≤ ab.1 ∧ ab.1 < ab.2 ∧ ab.2 ≤ pos + cs.length := by
  intro fuel
  induction fuel with
  | zero => intro _ _ _ ab hab; simp [scanAux] at hab
  | succ fuel ih =>
    intro prevW pos cs ab hab
    simp only [scanAux] at hab
    cases hm2 : m prevW cs with
    | some l =>
      rw [hm2] at hab
      obtain ⟨hl, hle⟩ := hm _ _ _ hm2
      rcases List.mem_cons.mp hab with hab | hab
      · subst hab
        exact ⟨le_rfl, by omega, by omega⟩
      · have := ih _ _ _ ab hab
        rw [List.length_drop] at this
        exact ⟨by omega, this.2.1, by omega⟩
    | none =>
      rw [hm2] at hab
      cases cs with
      | nil => simp at hab
      | cons c rest =>
        have := ih _ _ _ ab hab
        simp only [List.length_cons] at *
        exact ⟨by omega, this.2.1, by omega⟩

theorem scanAux_pairwise {m : Bool → List Char → Option Nat}
    (hm : ∀ p s l, m p s = some l → 0 < l ∧ l ≤ s.length) :
    ∀ (fuel : Nat) (prevW : Bool) (pos : Nat) (cs : List Char),
      List.Pairwise (fun x y : Nat × Nat => x.2 ≤ y.1)
        (scanAux m fuel prevW pos cs) := by
  intro fuel
  induction fuel with
  | zero => intro _ _ _; simp [scanAux]
  | succ fuel ih =>
    intro prevW pos cs
    simp only [scanAux]
    cases hm2 : m prevW cs with
    | some l =>
      exact List.Pairwise.cons (fun y hy => (scanAux_mem hm _ _ _ _ y hy).1) (ih _ _ _)
    | none =>
      cases cs with
      | nil => exact List.Pairwise.nil
      | cons c rest => exact ih _ _ _

theorem scan_pairwise {m : Bool → List Char → Option Nat}
    (hm : ∀ p s l, m p s = some l → 0 < l ∧ l ≤ s.length) (txt : List Char) :
    List.Pairwise (fun x y : Nat × Nat => x.2 ≤ y.1) (scan m txt) :=
  scanAux_pairwise hm _ _ _ _

theorem matchMoney1_bound (s : List Char) (l : Nat) (h : matchMoney1 s = some l) :
    0 < l ∧ l ≤ s.length := by
  cases s with
  | nil => simp [matchMoney1] at h
  | cons c0 rest =>
    have hlen := length_take_drop_while isMoneyClass rest
    simp only [matchMoney1] at h
    by_cases h0 : c0 = '€'
    · rw [if_pos h0] at h
      by_cases h1 : (rest.takeWhile isMoneyClass).length = 0
      · rw [if_pos h1] at h; exact absurd h (by simp)
      · rw [if_neg h1] at h
        split at h
        · rename_i c1 d1 d2 tail heq
          by_cases h2 : (c1 = ',' && d1.isDigit && d2.isDigit) = true
          · rw [if_pos h2] at h
            simp only [Option.some.injEq] at h
            rw [heq] at hlen
            simp only [List.length_cons] at *
            omega
          · rw [if_neg h2] at h; exact absurd h (by simp)
        · exact absurd h (by simp)
    · rw [if_neg h0] at h; exact absurd h (by simp)

theorem matchMoney2_bound (s : List Char) (l : Nat) (h : matchMoney2 s = some l) :
    0 < l ∧ l ≤ s.length := by
  have hlen := length_take_drop_while isMoneyClass s
  simp only [matchMoney2] at h
  by_cases h1 : (s.takeWhile isMoneyClass).length = 0
  · rw [if_pos h1] at h; exact absurd h (by simp)
  · rw [if_neg h1] at h
    split at h
    · rename_i c1 d1 d2 rest3 heq
      rw [heq] at hlen
      by_cases h2 : (c1 = ',' && d1.isDigit && d2.isDigit) = true
      · rw [if_pos h2] at h
        split at h
        · exact absurd h (by simp)
        · rename_i c rest4
          by_cases h3 : isPySpace c = true
          · rw [if_pos h3] at h
            split at h
            · rename_i e rest5
              by_cases h4 : e = '€'
              · rw [if_pos h4] at h
                simp only [Option.some.injEq] at h
                simp only [List.length_cons] at *
                omega
              · rw [if_neg h4] at h; exact absurd h (by simp)
            · exact absurd h (by simp)
          · rw [if_neg h3] at h
            by_cases h4 : c = '€'
            · rw [if_pos h4] at h
              simp only [Option.some.injEq] at h
              simp only [List.length_cons] at *
              omega
            · rw [if_neg h4] at h; exact absurd h (by simp)
      · rw [if_neg h2] at h; exact absurd h (by simp)
    · exact absurd h (by simp)

theorem matchDate_bound (sep : Char) (prevW : Bool) (s : List Char) (l : Nat)
    (h : matchDate sep prevW s = some l) : 0 < l ∧ l ≤ s.length := by
  rcases s with _ | ⟨a, _ | ⟨b, _ | ⟨s1, _ | ⟨c, _ | ⟨d, _ | ⟨s2, _ | ⟨e, _ | ⟨f,
    _ | ⟨g, _ | ⟨hh, rest⟩⟩⟩⟩⟩⟩⟩⟩⟩⟩
  · simp [matchDate] at h
  · simp [matchDate] at h
  · simp [matchDate] at h
  · simp [matchDate] at h
  · simp [matchDate] at h
  · simp [matchDate] at h
  · simp [matchDate] at h
  · simp [matchDate] at h
  · simp [matchDate] at h
  · simp [matchDate] at h
  · simp only [matchDate] at h
    split at h
    · simp only [Option.some.injEq] at h
      subst h
      simp only [List.length_cons]
      omega
    · exact absurd h (by simp)

/-! Hit construction and the per-line loops. -/

theorem mkHit_eq_some {kind : HitKind} {chars : List Glyph} {a b : Nat} {h : Hit}
    (hm : mkHit kind chars a b = some h) :
    ∃ g gs, slice chars a b = g :: gs ∧
      h.kind = kind ∧ h.span = (a, b) ∧
      h.size = median ((g :: gs).map Glyph.size) ∧
      h.family = (family_and_style g.fontname).1 ∧
      h.style = (family_and_style g.fontname).2 := by
  simp only [mkHit] at hm
  split at hm
  · exact absurd hm (by simp)
  · rename_i g gs heq
    simp only [Option.some.injEq] at hm
    subst hm
    exact ⟨g, gs, heq, rfl, rfl, rfl, rfl, rfl⟩

theorem hits_span_sublist (f : Nat × Nat → Option Hit)
    (hf : ∀ ab h, f ab = some h → h.span = ab) (l : List (Nat × Nat)) :
    ((l.filterMap f).map Hit.span).Sublist l := by
  induction l with
  | nil => simp
  | cons ab t ih =>
    rw [List.filterMap_cons]
    cases hfa : f ab with
    | none => exact ih.cons ab
    | some hh =>
      rw [List.map_cons, hf ab hh hfa]
      exact ih.cons₂ ab

theorem amountHitsForPat_span {chars : List Glyph} {ab : Nat × Nat} {h : Hit}
    (hf : (if contains202 (slice (lineText chars) ab.1 ab.2) && decide (ab.2 - ab.1 < 12)
      then none else mkHit HitKind.amount chars ab.1 ab.2) = some h) : h.span = ab := by
  split at hf
  · exact absurd hf (by simp)
  · obtain ⟨g, gs, _, _, hsp, _⟩ := mkHit_eq_some hf
    rw [hsp]

theorem amountHitsForPat_spans_sublist (m : List Char → Option Nat) (chars : List Glyph) :
    ((amountHitsForPat m chars).map Hit.span).Sublist (scanP m (lineText chars)) := by
  apply hits_span_sublist
  intro ab h hf
  exact amountHitsForPat_span hf

theorem dateHitsForPat_spans_sublist (sep : Char) (chars : List Glyph) :
    ((dateHitsForPat sep chars).map Hit.span).Sublist
      (scan (matchDate sep) (lineText chars)) := by
  apply hits_span_sublist
  intro ab h hf
  obtain ⟨g, gs, _, _, hsp, _⟩ := mkHit_eq_some hf
  rw [hsp]

/-! Compositing and overlay structure. -/

theorem composePages_dims (origs : List PageIn) (ovs : List OverlayPage) :
    (composePages origs ovs).map outDims = origs.map pageDims := by
  induction origs generalizing ovs with
  | nil => cases ovs <;> rfl
  | cons p ps ih =>
    cases ovs with
    | nil => simp [composePages, outDims, pageDims, ih]
    | cons ov ovs2 => simp [composePages, outDims, pageDims, ih]

theorem composePages_length (origs : List PageIn) (ovs : List OverlayPage) :
    (composePages origs ovs).length = origs.length := by
  have h := composePages_dims origs ovs
  have := congrArg List.length h
  simpa using this

theorem overlayFor_length (d : List Char) (cents : Nat) (registered : Bool)
    (pages : List PageIn) :
    (overlayFor d cents registered pages).length = pages.length := by
  cases pages with
  | nil => rfl
  | cons p ps => simp [overlayFor]

/-! Claim theorems. -/

/-- C1: for every input document with at least one page, the output document
has the same number of pages as the input, and each output page at index `i`
has the same mediabox width and height as input page `i`, in the original
order.  (Stated as equality of the dimension lists, which fixes count, order
and per-index dimensions at once; `merge_page` leaves the original page's
mediabox untouched, and `writer.add_page` re-emits the original pages in
order.) -/
theorem c1_output_page_dims (currentDate : List Char) (cents : Nat)
    (registered : Bool) (p0 : PageIn) (rest : List PageIn) :
    ∃ out, notary currentDate cents registered (p0 :: rest) = some out ∧
      out.map outDims = (p0 :: rest).map pageDims := by
  refine ⟨_, rfl, ?_⟩
  exact composePages_dims _ _

/-- C2: a candidate amount match of either money pattern is turned into a hit
if and only if it is not year-suppressed (matched text contains `"202"` and is
shorter than 12 characters) and its glyph slice is nonempty; in particular a
suppressed match never produces a hit, and the suppression rule never
discards a match that fails either of its two conditions. -/
theorem c2_year_suppression (chars : List Glyph) (usePat1 : Bool) (a b : Nat)
    (hm : (a, b) ∈ scanP (if usePat1 then matchMoney1 else matchMoney2)
      (lineText chars)) :
    ((a, b) ∈ (amountHitsForPat (if usePat1 then matchMoney1 else matchMoney2)
        chars).map Hit.span) ↔
      ((contains202 (slice (lineText chars) a b) && decide (b - a < 12)) = false ∧
        slice chars a b ≠ []) := by
  simp only [amountHitsForPat]
  constructor
  · intro hmem
    rw [List.mem_map] at hmem
    obtain ⟨h, hh, hspan⟩ := hmem
    rw [List.mem_filterMap] at hh
    obtain ⟨ab, hab, hf⟩ := hh
    have hsp := amountHitsForPat_span hf
    rw [hspan] at hsp
    subst hsp
    split at hf
    · exact absurd hf (by simp)
    · rename_i hcond
      obtain ⟨g, gs, hgs, _⟩ := mkHit_eq_some hf
      refine ⟨by simpa using hcond, ?_⟩
      rw [hgs]
      simp
  · rintro ⟨hsup, hne⟩
    obtain ⟨g, gs, hgs⟩ := List.exists_cons_of_ne_nil hne
    obtain ⟨h2, hh2⟩ : ∃ h2, mkHit HitKind.amount chars a b = some h2 := by
      simp only [mkHit, hgs]
      exact ⟨_, rfl⟩
    rw [List.mem_map]
    refine ⟨h2, ?_, ?_⟩
    · rw [List.mem_filterMap]
      exact ⟨(a, b), hm, by rw [if_neg (by simp [hsup])]; exact hh2⟩
    · obtain ⟨_, _, _, _, hsp, _⟩ := mkHit_eq_some hh2
      rw [hsp]

/-- Witness for C2: on the line `"€ 202,00"` the symbol-left pattern matches
the whole line (span `(0, 8)`), the matched text contains `"202"` and has
length `8 < 12`, and indeed no hit with that span is created. -/
theorem c2_witness :
    ((0, 8) ∈ scanP matchMoney1 (lineText line202)) ∧
    (((0, 8) ∈ (amountHitsForPat matchMoney1 line202).map Hit.span) ↔
      ((contains202 (slice (lineText line202) 0 8) && decide (8 - 0 < 12)) = false ∧
        slice line202 0 8 ≠ [])) :=
  ⟨by decide, c2_year_suppression line202 true 0 8 (by decide)⟩

/-- C3: formatting a two-decimal value (given exactly as `cents`) with
`_format_like` in either currency placement yields a string fully matched by
the corresponding money pattern (the matcher consumes the whole string from
position 0), and `parse_money` on that string returns exactly the value as a
two-decimal `Decimal` (unscaled mantissa `cents`, scale 2). -/
theorem c3_round_trip (cents : Nat) (src : List Char) :
    (if eurLeft src then
      matchMoney1 (format_like src cents) = some (format_like src cents).length
    else
      matchMoney2 (format_like src cents) = some (format_like src cents).length) ∧
    parse_money (format_like src cents) = some (Int.ofNat cents, 2) := by
  constructor
  · by_cases h : eurLeft src = true
    · rw [if_pos h]
      simp only [format_like, if_pos h]
      exact matchMoney1_dutch cents
    · rw [if_neg (by simpa using h)]
      simp only [format_like, if_neg (by simpa using h : ¬ eurLeft src = true)]
      exact matchMoney2_dutch cents
  · exact parse_money_format cents src

/-- C4 (counterexample): on the line `"€ 5.000,00 €"` the two money patterns
produce hits whose spans `(0, 10)` (symbol-left match `"€ 5.000,00"`) and
`(1, 12)` (symbol-right match `" 5.000,00 €"`) overlap: the code performs no
span-claiming across patterns, so the claimed pairwise non-overlap of all
hits on a line is false. -/
theorem c4_counterexample :
    ((lineHits lineOverlap).map Hit.span) = [(0, 10), (1, 12)] ∧
    spansOverlap (0, 10) (1, 12) :=
  ⟨by decide, by norm_num [spansOverlap]⟩

/-- C4 (amended): the four patterns are applied in the fixed order
symbol-left amount, symbol-right amount, dash date, dot date (the
concatenation in `lineHits`), and within any single pattern the hit spans are
pairwise non-overlapping and ordered left to right (because `finditer`
resumes after each match); but no span is withheld from later patterns, so
hits of different patterns may overlap. -/
theorem c4_per_pattern_non_overlap (chars : List Glyph) :
    List.Pairwise (fun x y : Nat × Nat => x.2 ≤ y.1)
      ((amountHitsForPat matchMoney1 chars).map Hit.span) ∧
    List.Pairwise (fun x y : Nat × Nat => x.2 ≤ y.1)
      ((amountHitsForPat matchMoney2 chars).map Hit.span) ∧
    List.Pairwise (fun x y : Nat × Nat => x.2 ≤ y.1)
      ((dateHitsForPat '-' chars).map Hit.span) ∧
    List.Pairwise (fun x y : Nat × Nat => x.2 ≤ y.1)
      ((dateHitsForPat '.' chars).map Hit.span) ∧
    (chars.isEmpty = false →
      lineHits chars = amountHitsForPat matchMoney1 chars
        ++ amountHitsForPat matchMoney2 chars
        ++ dateHitsForPat '-' chars ++ dateHitsForPat '.' chars) := by
  refine ⟨?_, ?_, ?_, ?_, ?_⟩
  · exact ((scan_pairwise (fun p s l hl => matchMoney1_bound s l hl) _).sublist
      (amountHitsForPat_spans_sublist matchMoney1 chars))
  · exact ((scan_pairwise (fun p s l hl => matchMoney2_bound s l hl) _).sublist
      (amountHitsForPat_spans_sublist matchMoney2 chars))
  · exact ((scan_pairwise (matchDate_bound '-') _).sublist
      (dateHitsForPat_spans_sublist '-' chars))
  · exact ((scan_pairwise (matchDate_bound '.') _).sublist
      (dateHitsForPat_spans_sublist '.' chars))
  · intro he
    simp [lineHits, he]

/-- Witness for C4 (amended): the nonemptiness hypothesis of the order
conjunct discharged on the concrete line `"€ 5.000,00 €"`. -/
theorem c4_witness :
    lineOverlap.isEmpty = false ∧
    lineHits lineOverlap = amountHitsForPat matchMoney1 lineOverlap
      ++ amountHitsForPat matchMoney2 lineOverlap
      ++ dateHitsForPat '-' lineOverlap ++ dateHitsForPat '.' lineOverlap :=
  ⟨by decide, (c4_per_pattern_non_overlap lineOverlap).2.2.2.2 (by decide)⟩

/-- C5: for every Date hit, whichever date pattern produced it, the text
drawn is the `current_date` string computed once per invocation by
`now_nl_date`, i.e. the invocation-time date rendered `DD-MM-YYYY` (the
day/month/year parameters stand for the Europe/Amsterdam wall clock), not any
transformation of the matched source text (`h.src` does not occur in the
ops). -/
theorem c5_date_replacement (d m y : Nat) (cents : Nat) (registered : Bool)
    (h : Hit) (hk : h.kind = HitKind.date) :
    ∃ r, opsForHit (now_nl_date d m y) cents registered h =
      [r, DrawOp.text h.x0 (h.y0 + (h.y1 - h.y0) * h.k) (ensure_font registered)
        h.size (now_nl_date d m y)] ∧
      now_nl_date d m y = pad2 d ++ '-' :: pad2 m ++ '-' ::
        [digitChar (y / 1000 % 10), digitChar (y / 100 % 10),
         digitChar (y / 10 % 10), digitChar (y % 10)] := by
  simp only [opsForHit, hk]
  exact ⟨_, rfl, rfl⟩

/-- Witness for C5 at a concrete date hit and a concrete date. -/
theorem c5_witness :
    hitDate.kind = HitKind.date ∧
    ∃ r, opsForHit (now_nl_date 12 10 2026) 98000 true hitDate =
      [r, DrawOp.text hitDate.x0 (hitDate.y0 + (hitDate.y1 - hitDate.y0) * hitDate.k)
        (ensure_font true) hitDate.size (now_nl_date 12 10 2026)] ∧
      now_nl_date 12 10 2026 = pad2 12 ++ '-' :: pad2 10 ++ '-' ::
        [digitChar (2026 / 1000 % 10), digitChar (2026 / 100 % 10),
         digitChar (2026 / 10 % 10), digitChar (2026 % 10)] :=
  ⟨rfl, c5_date_replacement 12 10 2026 98000 true hitDate rfl⟩

/-- C6: for every hit the first drawn op is the blanking rectangle: opaque
white fill (`fill=1, stroke=0`, fill color white, no transparency is ever
configured), with corner `(x0 - pad, y0 - pad)` and extents reaching exactly
`(x1 + pad, y1 + pad)`, where `pad = max(1.2, 0.18 * fontSize)` for the hit's
resolved font size. -/
theorem c6_blanking_rect (d : List Char) (cents : Nat) (registered : Bool) (h : Hit) :
    ∃ t, opsForHit d cents registered h =
      [DrawOp.rect (h.x0 - max (6 / 5 : ℚ) (9 / 50 * h.size))
        (h.y0 - max (6 / 5 : ℚ) (9 / 50 * h.size))
        ((h.x1 - h.x0) + 2 * max (6 / 5 : ℚ) (9 / 50 * h.size))
        ((h.y1 - h.y0) + 2 * max (6 / 5 : ℚ) (9 / 50 * h.size))
        Color.white true false, t] ∧
      (h.x0 - max (6 / 5 : ℚ) (9 / 50 * h.size)) +
        ((h.x1 - h.x0) + 2 * max (6 / 5 : ℚ) (9 / 50 * h.size)) =
        h.x1 + max (6 / 5 : ℚ) (9 / 50 * h.size) ∧
      (h.y0 - max (6 / 5 : ℚ) (9 / 50 * h.size)) +
        ((h.y1 - h.y0) + 2 * max (6 / 5 : ℚ) (9 / 50 * h.size)) =
        h.y1 + max (6 / 5 : ℚ) (9 / 50 * h.size) := by
  refine ⟨_, rfl, by ring, by ring⟩

/-- C7: the resolved family/style of a hit equals the family lookup applied
to the first covering glyph's font name with the subsetting prefix (exactly
six uppercase letters followed by `'+'`) stripped.  This holds degenerately:
the source's `_family_and_style` is a constant "Simplistic mapping" that
ignores its argument, so pre-stripping cannot change the result (the helper
`_strip_subset` is defined in the source but never invoked on this path); the
second conjunct checks that `strip_subset` removes exactly such a prefix. -/
theorem c7_family_from_stripped (kind : HitKind) (chars : List Glyph) (a b : Nat)
    (h : Hit) (g : Glyph) (gs : List Glyph)
    (hslice : slice chars a b = g :: gs) (hmk : mkHit kind chars a b = some h) :
    (h.family, h.style) = family_and_style (strip_subset g.fontname) ∧
    (∀ u r : List Char, u.length = 6 → u.all isUpperAZ = true →
      strip_subsetL (u ++ '+' :: r) = r) := by
  constructor
  · obtain ⟨g2, gs2, hs2, _, _, _, hf2, hst2⟩ := mkHit_eq_some hmk
    rw [hslice] at hs2
    have hg : g2 = g := by
      injection hs2 with h1 h2
      exact h1.symm
    subst hg
    rw [hf2, hst2]
    rfl
  · intro u r hlen hall
    rcases u with _ | ⟨a1, _ | ⟨a2, _ | ⟨a3, _ | ⟨a4, _ | ⟨a5, _ | ⟨a6, urest⟩⟩⟩⟩⟩⟩ <;>
      simp only [List.length_cons, List.length_nil] at hlen
    · omega
    · omega
    · omega
    · omega
    · omega
    · omega
    · have hur : urest = [] := List.length_eq_zero.mp (by omega)
      subst hur
      simp only [List.all_cons, List.all_nil, Bool.and_eq_true, and_true] at hall
      obtain ⟨h1, h2, h3, h4, h5, h6⟩ := hall
      simp only [List.cons_append, List.nil_append, strip_subsetL]
      rw [if_pos (by simp [h1, h2, h3, h4, h5, h6])]

/-- Witness for C7: a one-glyph line whose font name is
`"ABCDEF+Arial-Bold"`; the hit resolves to the constant family/style, and the
prefix stripping is exercised on a six-uppercase-letter prefix. -/
theorem c7_witness :
    slice [glyphSub] 0 1 = glyphSub :: [] ∧
    mkHit HitKind.amount [glyphSub] 0 1 = some hitSub ∧
    (hitSub.family, hitSub.style) = family_and_style (strip_subset glyphSub.fontname) ∧
    strip_subsetL (['A', 'B', 'C', 'D', 'E', 'F'] ++ '+' :: ['X']) = ['X'] := by
  refine ⟨by decide, by rfl, ?_, ?_⟩
  · exact (c7_family_from_stripped HitKind.amount [glyphSub] 0 1 hitSub glyphSub []
      (by decide) (by rfl)).1
  · exact (c7_family_from_stripped HitKind.amount [glyphSub] 0 1 hitSub glyphSub []
      (by decide) (by rfl)).2 ['A', 'B', 'C', 'D', 'E', 'F'] ['X'] rfl (by decide)

/-- C8 (counterexample): with two original pages and a one-page overlay the
page counts diverge, yet compositing does not fail and does produce output:
two pages, the second passed through unmerged.  No `CompositionError` (or any
page-count check) exists in the code. -/
theorem c8_counterexample :
    (composePages [pageA, pageB] [ovA]).length = 2 ∧
    (composePages [pageA, pageB] [ovA]).map OutPage.overlay = [some ovA, none] :=
  ⟨rfl, rfl⟩

/-- C8 (amended): compositing is total — it always emits exactly one output
page per original page, merging the overlay page of the same index when one
exists and passing the original through unmerged otherwise; and the pipeline
invariant holds: the overlay document always has exactly one page per source
page, so for the overlays actually produced the counts never diverge. -/
theorem c8_compose_never_fails :
    (∀ (origs : List PageIn) (ovs : List OverlayPage),
      (composePages origs ovs).length = origs.length) ∧
    (∀ (d : List Char) (cents : Nat) (registered : Bool) (pages : List PageIn),
      (overlayFor d cents registered pages).length = pages.length) :=
  ⟨composePages_length, overlayFor_length⟩

/-- C9 (counterexample): the overlay surface for page 1 has page 0's
dimensions (595 × 842), not page 1's own (100 × 200): the reportlab canvas
page size is set once at creation (from the first page) and `showPage` never
changes it, so the claim that each overlay surface is sized to its own page's
dimensions is false. -/
theorem c9_counterexample :
    (overlayFor [] 0 true [pageA, pageC]).map overlayDims = [(595, 842), (595, 842)] ∧
    [pageA, pageC].map pageDims = [(595, 842), (100, 200)] ∧
    ((595 : ℚ), (842 : ℚ)) ≠ ((100 : ℚ), (200 : ℚ)) :=
  ⟨rfl, rfl, by norm_num⟩

/-- C9 (amended): every overlay drawing surface has the dimensions of the
FIRST page; page `i`'s own width/height are read but only used when
`i == 0`. -/
theorem c9_overlay_sized_to_first_page (d : List Char) (cents : Nat)
    (registered : Bool) (p0 : PageIn) (rest : List PageIn) :
    (overlayFor d cents registered (p0 :: rest)).map overlayDims =
      (p0 :: rest).map (fun _ => (p0.width, p0.height)) := by
  simp only [overlayFor, List.map_map]
  apply List.map_congr_left
  intro p hp
  rfl

/-- C10: every hit created on a line has a nonempty covering-glyph slice
(`chars[a:b]` for its span), and its font size is the median over exactly
that nonempty list — so the bbox minima/maxima and the median are always
taken over at least one glyph and cannot fail; a match whose slice were empty
is discarded by the `if not seg: continue` guard inside `mkHit`. -/
theorem c10_hits_cover_glyphs (chars : List Glyph) (h : Hit)
    (hmem : h ∈ lineHits chars) :
    ∃ g gs, slice chars h.span.1 h.span.2 = g :: gs ∧
      h.size = median ((g :: gs).map Glyph.size) := by
  have hmk : ∃ kind a b, mkHit kind chars a b = some h := by
    simp only [lineHits] at hmem
    split at hmem
    · exact absurd hmem (by simp)
    · rcases List.mem_append.mp hmem with hm2 | hdot
      · rcases List.mem_append.mp hm2 with hm3 | hdash
        · rcases List.mem_append.mp hm3 with hp1 | hp2
          · obtain ⟨ab, _, hf⟩ := List.mem_filterMap.mp hp1
            split at hf
            · exact absurd hf (by simp)
            · exact ⟨_, _, _, hf⟩
          · obtain ⟨ab, _, hf⟩ := List.mem_filterMap.mp hp2
            split at hf
            · exact absurd hf (by simp)
            · exact ⟨_, _, _, hf⟩
        · obtain ⟨ab, _, hf⟩ := List.mem_filterMap.mp hdash
          exact ⟨_, _, _, hf⟩
      · obtain ⟨ab, _, hf⟩ := List.mem_filterMap.mp hdot
        exact ⟨_, _, _, hf⟩
  obtain ⟨kind, a, b, hmk⟩ := hmk
  obtain ⟨g, gs, hgs, _, hsp, hsz, _⟩ := mkHit_eq_some hmk
  rw [hsp]
  exact ⟨g, gs, hgs, hsz⟩

/-- Witness for C10: the concrete hit on the line `"€ 5,00"` covers the six
glyphs of its span and carries their median size. -/
theorem c10_witness :
    hit500 ∈ lineHits line500 ∧
    ∃ g gs, slice line500 hit500.span.1 hit500.span.2 = g :: gs ∧
      hit500.size = median ((g :: gs).map Glyph.size) :=
  ⟨by rw [show lineHits line500 = [hit500] from rfl]; exact List.mem_singleton.mpr rfl,
    c10_hits_cover_glyphs line500 hit500
      (by rw [show lineHits line500 = [hit500] from rfl]; exact List.mem_singleton.mpr rfl)⟩

end BotNL
